import Mathlib

/-!
# Verification of the tftb analytic-signal generators and the Wigner-Ville engine spec

Shallow embedding of `src/tftb/generators/analytic_signals.py` and of the caller-side
post-processing in `src/doc/examples/introductory_examples/4_2_5_bat_sonar_wv.py`.

Modelling conventions, fixed once for the whole file:

* The source is Python-2-era code (it uses the implicit relative import
  `from frequency_modulated import fmconst` and passes `n_points / 2` to `np.zeros`,
  both of which require Python 2).  Accordingly `/` between two Python `int`s is
  truncating division (modelled by `Nat.div` / `Int.div`), while `/` involving a
  `numpy` float (for example the result of `np.round`, which returns `np.float64`)
  is true division (modelled by division in `ℚ`).
* Python floats are modelled as exact rationals `ℚ` wherever the source only performs
  field operations, comparisons, `floor`, `ceil` and `round`; quantities that pass
  through `exp`, `π` or fractional powers live in `ℝ` / `ℂ`.
* `numpy` 1-D arrays are modelled as `List`s; `np.random.rand` draws are modelled by
  an explicit stream `s : ℕ → ℚ` of the process-wide generator's successive outputs.
* `numpy` broadcasting of two 1-D arrays (lengths must agree, or one of the two must
  be `1`) is modelled by `bcZip`; a shape mismatch raises `ValueError`, modelled by
  `Err.broadcastError`.
* Exceptions are modelled by `Except Err`; `TypeError` raised by the `f0` range
  checks plays the role of the spec's `InvalidParameterError`, `ZeroDivisionError`
  (Python 2 `int / 0`, or the `np.float64` pipeline blowing up on `n_comp == 0.0`)
  is `Err.zeroDivisionError`.
-/

open Complex ZMod Finset

namespace Tftb

/-- Error kinds; the spec's taxonomy (§7) plus the concrete Python exceptions the
source can raise (`ValueError` from broadcasting, `ZeroDivisionError`). -/
inductive Err where
  | invalidSignalError
  | invalidParameterError
  | invalidWindowError
  | zeroDivisionError
  | broadcastError
  deriving DecidableEq, Repr

/-- `np.kron(a, np.ones(k))`: every element of `a` repeated `k` times in place. -/
def repeatEach (xs : List α) (k : ℕ) : List α :=
  xs.flatMap (fun x => List.replicate k x)

theorem repeatEach_length (xs : List α) (k : ℕ) :
    (repeatEach xs k).length = xs.length * k := by
  induction xs with
  | nil => simp [repeatEach]
  | cons a l ih =>
      unfold repeatEach at ih ⊢
      rw [List.flatMap_cons, List.length_append, List.length_replicate, ih,
        List.length_cons]
      ring

/-- `np.arange(start, stop, step)` for a positive step, with exact arithmetic:
`⌈(stop - start)/step⌉` points `start + i·step`. -/
def arangeQ (start stop step : ℚ) : List ℚ :=
  (List.range ⌈(stop - start) / step⌉₊).map (fun i : ℕ => start + step * (i : ℚ))

theorem arangeQ_length (start stop step : ℚ) :
    (arangeQ start stop step).length = ⌈(stop - start) / step⌉₊ := by
  unfold arangeQ
  rw [List.length_map, List.length_range]

/-- `np.cumsum`: inclusive partial sums. -/
def cumsum (xs : List ℚ) : List ℚ :=
  (List.range xs.length).map (fun i => (xs.take (i + 1)).sum)

theorem cumsum_length (xs : List ℚ) : (cumsum xs).length = xs.length := by
  simp [cumsum]

/-- `numpy` broadcasting for a binary operation on two 1-D arrays: lengths must be
equal, or one of the operands must have length 1 (it is then stretched); any other
combination raises `ValueError`. -/
def bcZip (f : α → β → γ) : List α → List β → Except Err (List γ)
  | xs, ys =>
    if xs.length = ys.length then .ok (List.zipWith f xs ys)
    else
      match xs, ys with
      | [x], ys => .ok (ys.map (fun y => f x y))
      | xs, [y] => .ok (xs.map (fun x => f x y))
      | _, _ => .error .broadcastError

theorem bcZip_eq_length (f : α → β → γ) (xs : List α) (ys : List β)
    (h : xs.length = ys.length) : bcZip f xs ys = .ok (List.zipWith f xs ys) := by
  simp [bcZip, h]

theorem bcZip_error_eq (f : α → β → γ) (xs : List α) (ys : List β) (e : Err)
    (h : bcZip f xs ys = .error e) : e = .broadcastError := by
  by_cases hlen : xs.length = ys.length
  · rw [bcZip_eq_length f xs ys hlen] at h
    cases h
  · simp only [bcZip] at h
    rw [if_neg hlen] at h
    rcases xs with _ | ⟨x, xt⟩
    · rcases ys with _ | ⟨y, yt⟩
      · simp at hlen
      · rcases yt with _ | ⟨y2, yt2⟩
        · cases h
        · exact (Except.error.inj h).symm
    · rcases xt with _ | ⟨x2, xt2⟩
      · rcases ys with _ | ⟨y, yt⟩
        · cases h
        · rcases yt with _ | ⟨y2, yt2⟩
          · cases h
          · cases h
      · rcases ys with _ | ⟨y, yt⟩
        · exact (Except.error.inj h).symm
        · rcases yt with _ | ⟨y2, yt2⟩
          · cases h
          · exact (Except.error.inj h).symm

/-- `np.round` on a float scalar: round half to even (banker's rounding). -/
def npRound (q : ℚ) : ℤ :=
  if q - ⌊q⌋ < 1/2 then ⌊q⌋
  else if 1/2 < q - ⌊q⌋ then ⌊q⌋ + 1
  else if 2 ∣ ⌊q⌋ then ⌊q⌋ else ⌊q⌋ + 1

/-- `np.sign` on a float scalar. -/
noncomputable def npSign (x : ℝ) : ℝ :=
  if x < 0 then -1 else if 0 < x then 1 else 0

/-- `np.max` / `.max()` of a 1-D float array (the source only applies it to
nonempty arrays; the empty default is irrelevant). -/
noncomputable def npMax (l : List ℝ) : ℝ := l.foldr max (l.getD 0 0)

/-- `np.min` of a 1-D float array. -/
noncomputable def npMin (l : List ℝ) : ℝ := l.foldr min (l.getD 0 0)

/-! ## The external collaborator `scipy.signal.hilbert`

`scipy.signal.hilbert(x)` computes `ifft(fft(x) * h)` where `h[0] = 1`,
`h[k] = 2` for `0 < k < N/2`, `h[N/2] = 1` when `N` is even, and `h[k] = 0`
for `k > N/2`.  `np.fft.fft` is `X k = ∑ j, x j · exp(-2πi·jk/N)`, which is
exactly Mathlib's `ZMod.dft`, and `np.fft.ifft` is its inverse `𝓕⁻`.
The spec (§4.1, glossary "Analytic projection") requires that the real part of
the output matches the input; `hilbertFun_re` below proves that this model of
the scipy algorithm indeed has that property. -/

/-- The one-sided spectral filter of `scipy.signal.hilbert`. -/
def hcoef (N : ℕ) (k : ZMod N) : ℂ :=
  if k.val = 0 then 1
  else if 2 * k.val < N then 2
  else if 2 * k.val = N then 1
  else 0

/-- `scipy.signal.hilbert` on an `N`-point real signal: `ifft(fft(x) * h)`. -/
noncomputable def hilbertFun (N : ℕ) [NeZero N] (x : ZMod N → ℝ) (k : ZMod N) : ℂ :=
  (LinearEquiv.symm dft) (fun j => hcoef N j * dft (fun m => ((x m : ℝ) : ℂ)) j) k

theorem conj_stdAddChar {N : ℕ} [NeZero N] (a : ZMod N) :
    (starRingEnd ℂ) (stdAddChar a) = stdAddChar (-a) := by
  rw [stdAddChar_apply, stdAddChar_apply, AddChar.map_neg_eq_inv, ← Circle.coe_inv_eq_conj]

theorem conj_hcoef (N : ℕ) (k : ZMod N) : (starRingEnd ℂ) (hcoef N k) = hcoef N k := by
  unfold hcoef
  split_ifs <;> first
    | exact map_one _
    | exact map_ofNat _ 2
    | exact map_zero _

theorem hcoef_add_neg {N : ℕ} [NeZero N] (k : ZMod N) :
    hcoef N k + hcoef N (-k) = 2 := by
  have hvlt : k.val < N := ZMod.val_lt k
  by_cases hk : k = 0
  · subst hk
    rw [neg_zero]
    norm_num [hcoef, ZMod.val_zero]
  · have hv : k.val ≠ 0 := fun h => hk (ZMod.val_eq_zero k |>.mp h)
    have hneg : (-k).val = N - k.val := by
      rw [ZMod.neg_val]
      simp [hk]
    unfold hcoef
    rw [hneg]
    split_ifs <;> first | omega | norm_num

theorem dft_real_conj {N : ℕ} [NeZero N] (x : ZMod N → ℝ) (j : ZMod N) :
    (starRingEnd ℂ) (dft (fun m => ((x m : ℝ) : ℂ)) j) =
      dft (fun m => ((x m : ℝ) : ℂ)) (-j) := by
  rw [dft_apply, dft_apply, map_sum]
  refine Finset.sum_congr rfl (fun m _ => ?_)
  have harg : -(m * -j) = m * j := by ring
  rw [smul_eq_mul, smul_eq_mul, map_mul, conj_stdAddChar, Complex.conj_ofReal,
    harg, neg_neg]

/-- The scipy Hilbert-transform model preserves the real part of its input:
`Re (hilbert x) = x`.  This is the "analytic projection" property of spec §4.1. -/
theorem hilbertFun_re {N : ℕ} [NeZero N] (x : ZMod N → ℝ) (k : ZMod N) :
    (hilbertFun N x k).re = x k := by
  have h1 : hilbertFun N x k =
      (N : ℂ)⁻¹ * ∑ j : ZMod N,
        stdAddChar (j * k) * (hcoef N j * dft (fun m => ((x m : ℝ) : ℂ)) j) := by
    unfold hilbertFun
    rw [invDFT_apply]
    simp only [smul_eq_mul]
  have hterm : ∀ j : ZMod N,
      (starRingEnd ℂ) (stdAddChar (j * k) * (hcoef N j * dft (fun m => ((x m : ℝ) : ℂ)) j))
        = stdAddChar (-(j * k)) * (hcoef N j * dft (fun m => ((x m : ℝ) : ℂ)) (-j)) := by
    intro j
    rw [map_mul (starRingEnd ℂ), map_mul (starRingEnd ℂ), conj_stdAddChar,
      conj_hcoef, dft_real_conj]
  have h2 : (starRingEnd ℂ) (hilbertFun N x k) =
      (N : ℂ)⁻¹ * ∑ j : ZMod N,
        stdAddChar (j * k) * (hcoef N (-j) * dft (fun m => ((x m : ℝ) : ℂ)) j) := by
    rw [h1, map_mul, map_sum]
    congr 1
    · rw [map_inv₀, Complex.conj_natCast]
    · rw [Finset.sum_congr rfl (fun j _ => hterm j)]
      refine Fintype.sum_equiv (Equiv.neg (ZMod N)) _ _ (fun j => ?_)
      rw [Equiv.neg_apply]
      have harg : -(j * k) = (-j) * k := by ring
      rw [harg, neg_neg]
  have key : hilbertFun N x k + (starRingEnd ℂ) (hilbertFun N x k) =
      2 * ((x k : ℝ) : ℂ) := by
    rw [h2, h1, ← mul_add, ← Finset.sum_add_distrib]
    have hterm2 : ∀ j : ZMod N,
        stdAddChar (j * k) * (hcoef N j * dft (fun m => ((x m : ℝ) : ℂ)) j)
          + stdAddChar (j * k) * (hcoef N (-j) * dft (fun m => ((x m : ℝ) : ℂ)) j)
          = 2 * (stdAddChar (j * k) * dft (fun m => ((x m : ℝ) : ℂ)) j) := by
      intro j
      have hj := hcoef_add_neg (N := N) j
      rw [← hj]
      ring
    rw [Finset.sum_congr rfl (fun j _ => hterm2 j)]
    have hinv : (N : ℂ)⁻¹ * ∑ j : ZMod N,
        stdAddChar (j * k) * dft (fun m => ((x m : ℝ) : ℂ)) j = ((x k : ℝ) : ℂ) := by
      have hsym := congrFun (LinearEquiv.symm_apply_apply (dft (E := ℂ) (N := N))
        (fun m => ((x m : ℝ) : ℂ))) k
      rw [invDFT_apply] at hsym
      simp only [smul_eq_mul] at hsym
      exact hsym
    calc (N : ℂ)⁻¹ * ∑ j : ZMod N, 2 * (stdAddChar (j * k) * dft (fun m => ((x m : ℝ) : ℂ)) j)
        = 2 * ((N : ℂ)⁻¹ * ∑ j : ZMod N,
            stdAddChar (j * k) * dft (fun m => ((x m : ℝ) : ℂ)) j) := by
          rw [← Finset.mul_sum]
          ring
      _ = 2 * ((x k : ℝ) : ℂ) := by rw [hinv]
  rw [Complex.add_conj] at key
  have key2 : ((2 * (hilbertFun N x k).re : ℝ) : ℂ) = ((2 * x k : ℝ) : ℂ) := by
    rw [key]
    push_cast
    ring
  have key3 : (2 : ℝ) * (hilbertFun N x k).re = 2 * x k := by exact_mod_cast key2
  linarith

/-- `scipy.signal.hilbert` on a list: the analytic signal of a real signal,
sample by sample (empty input is degenerate and returns the empty list). -/
noncomputable def hilbertL (x : List ℝ) : List ℂ :=
  if h : x.length = 0 then []
  else
    haveI : NeZero x.length := ⟨h⟩
    (List.range x.length).map
      (fun t => hilbertFun x.length (fun j => x.getD j.val 0) ((t : ℕ) : ZMod x.length))

theorem hilbertL_length (x : List ℝ) : (hilbertL x).length = x.length := by
  unfold hilbertL
  split <;> simp_all

theorem hilbertL_getD_re (x : List ℝ) (t : ℕ) (ht : t < x.length) :
    ((hilbertL x).getD t 0).re = x.getD t 0 := by
  have hne : ¬ x.length = 0 := by omega
  haveI : NeZero x.length := ⟨hne⟩
  unfold hilbertL
  rw [dif_neg hne]
  have hmap : ((List.range x.length).map
      (fun u => hilbertFun x.length (fun j => x.getD j.val 0) ((u : ℕ) : ZMod x.length))).getD t 0
      = hilbertFun x.length (fun j => x.getD j.val 0) ((t : ℕ) : ZMod x.length) := by
    rw [List.getD_eq_getElem _ _ (by simpa using ht)]
    simp
  rw [hmap, hilbertFun_re]
  congr 1
  exact ZMod.val_natCast_of_lt ht

/-! ## Signal generators (`src/tftb/generators/analytic_signals.py`)

Each generator that calls `np.random.rand` is given the explicit stream
`s : ℕ → ℚ` of the process-wide generator's successive draws. -/

/-- Modelled from the spec: `fmconst`, imported by `analytic_signals.py` from the
repository's `frequency_modulated` module, is not under `src/`.  Per spec §6 a
generator returns a length-`n_points` complex sequence (and here its constant
instantaneous-frequency law): the analytic carrier at normalized frequency `f0`. -/
noncomputable def fmconst (n_points : ℕ) (f0 : ℚ) (center : ℕ) : List ℂ × List ℚ :=
  ((List.range n_points).map
      (fun t : ℕ => Complex.exp (2 * Real.pi * Complex.I * (f0 : ℂ) * ((t : ℂ) - (center : ℂ)))),
    List.replicate n_points f0)

/-- Effective `n_comp`: the explicit value, or the Python-2 default
`np.round(n_points / d)` (truncating integer division, on which `np.round` is the
identity). -/
def ncompOf (n_points d : ℕ) (onc : Option ℕ) : ℕ := onc.getD (n_points / d)

/-- `m = np.ceil(n_points / n_comp)` under Python-2 semantics: with an explicit
(`int`) `n_comp` the division `n_points / n_comp` already truncates, so `m` is
`n_points // n_comp`; with a defaulted `n_comp` (an `np.float64`, since `np.round`
returns a float) the division is true division, so `m = ⌈n_points / n_comp⌉`. -/
def mOf (n_points d : ℕ) (onc : Option ℕ) : ℕ :=
  match onc with
  | some c => n_points / c
  | none => ⌈(n_points : ℚ) / ((n_points / d : ℕ) : ℚ)⌉₊

/-- `jumps = np.random.rand(m)` of `anaask`. -/
def anaaskJumps (n_points : ℕ) (onc : Option ℕ) (s : ℕ → ℚ) : List ℚ :=
  (List.range (mOf n_points 2 onc)).map s

/-- `am = np.kron(jumps, np.ones((n_comp,)))[:n_points]` of `anaask`. -/
def anaaskAm (n_points : ℕ) (onc : Option ℕ) (s : ℕ → ℚ) : List ℚ :=
  (repeatEach (anaaskJumps n_points onc s) (ncompOf n_points 2 onc)).take n_points

/-- `anaask(n_points, n_comp, f0)`: amplitude shift keying signal and its
amplitude law.  The `f0` range check raises `TypeError` in the source, which is
the spec's parameter error; `n_comp = 0` makes `n_points / n_comp` raise. -/
noncomputable def anaask (n_points : ℕ) (onc : Option ℕ) (f0 : ℚ) (s : ℕ → ℚ) :
    Except Err (List ℂ × List ℚ) :=
  if f0 < 0 ∨ f0 > 1/2 then .error .invalidParameterError
  else if ncompOf n_points 2 onc = 0 then .error .zeroDivisionError
  else
    (bcZip (fun (a : ℚ) (z : ℂ) => (a : ℂ) * z)
        (anaaskAm n_points onc s) (fmconst n_points f0 1).1).map
      (fun y => (y, anaaskAm n_points onc s))

/-- `jumps = 2.0 * np.round(np.random.rand(m)) - 1` of `anabpsk`
(`np.round` on a float is round-half-to-even). -/
def anabpskJumps (n_points : ℕ) (onc : Option ℕ) (s : ℕ → ℚ) : List ℚ :=
  (List.range (mOf n_points 5 onc)).map (fun i => 2 * (npRound (s i) : ℚ) - 1)

/-- `am = np.kron(jumps, np.ones((n_comp,)))[:n_points]` of `anabpsk`. -/
def anabpskAm (n_points : ℕ) (onc : Option ℕ) (s : ℕ → ℚ) : List ℚ :=
  (repeatEach (anabpskJumps n_points onc s) (ncompOf n_points 5 onc)).take n_points

/-- `anabpsk(n_points, n_comp, f0)`: binary phase shift keying signal and its
`±1` amplitude law. -/
noncomputable def anabpsk (n_points : ℕ) (onc : Option ℕ) (f0 : ℚ) (s : ℕ → ℚ) :
    Except Err (List ℂ × List ℚ) :=
  if f0 < 0 ∨ f0 > 1/2 then .error .invalidParameterError
  else if ncompOf n_points 5 onc = 0 then .error .zeroDivisionError
  else
    (bcZip (fun (a : ℚ) (z : ℂ) => (a : ℂ) * z)
        (anabpskAm n_points onc s) (fmconst n_points f0 1).1).map
      (fun y => (y, anabpskAm n_points onc s))

/-- `freqs = 0.25 + 0.25 * (floor(Nbf * rand(m, 1)) / Nbf - (Nbf-1)/(2*Nbf))` of
`anafsk`; under Python 2 the trailing `(Nbf - 1) / (2 * Nbf)` is an integer
division, hence 0 for every `Nbf ≥ 1`. -/
def anafskFreqs (n_points : ℕ) (onc : Option ℕ) (Nbf : ℕ) (s : ℕ → ℚ) : List ℚ :=
  (List.range (mOf n_points 5 onc)).map
    (fun i => 1/4 + 1/4 * (((Int.floor ((Nbf : ℚ) * s i)) : ℚ) / (Nbf : ℚ)
      - (((Nbf - 1) / (2 * Nbf) : ℕ) : ℚ)))

/-- `iflaw = np.kron(freqs, np.ones((n_comp,))).ravel()` of `anafsk`; note the
missing `[:n_points]` truncation. -/
def anafskIflaw (n_points : ℕ) (onc : Option ℕ) (Nbf : ℕ) (s : ℕ → ℚ) : List ℚ :=
  repeatEach (anafskFreqs n_points onc Nbf s) (ncompOf n_points 5 onc)

/-- `anafsk(n_points, n_comp, Nbf)`: frequency shift keying signal and its
frequency law.  (An `Nbf = 0` call would produce NaNs in the source; only the
lengths, not the values, of that degenerate case are modelled by `ℚ`'s zero
division.) -/
noncomputable def anafsk (n_points : ℕ) (onc : Option ℕ) (Nbf : ℕ) (s : ℕ → ℚ) :
    Except Err (List ℂ × List ℚ) :=
  if ncompOf n_points 5 onc = 0 then .error .zeroDivisionError
  else
    .ok ((cumsum (anafskIflaw n_points onc Nbf s)).map
      (fun c : ℚ => Complex.exp (Complex.I * 2 * Real.pi * (c : ℂ))),
      anafskIflaw n_points onc Nbf s)

/-- `anapulse(n_points, ti)`: analytic projection of the unit impulse at `ti`
(`ti` defaults to `np.round(n_points / 2)`, which under Python 2 is `n_points // 2`). -/
noncomputable def anapulse (n_points : ℕ) (oti : Option ℚ) : List ℂ :=
  let ti := oti.getD ((n_points / 2 : ℕ) : ℚ)
  let x : List ℝ := (List.range n_points).map (fun t : ℕ => if (t : ℚ) = ti then 1 else 0)
  hilbertL x

/-- `jumps = np.floor(4 * np.random.rand(m)); jumps[jumps == 4] = 3` of `anaqpsk`. -/
def anaqpskJumps (n_points : ℕ) (onc : Option ℕ) (s : ℕ → ℚ) : List ℤ :=
  (List.range (mOf n_points 5 onc)).map
    (fun i => if Int.floor (4 * s i) = 4 then 3 else Int.floor (4 * s i))

/-- `pm0 = (np.pi * np.kron(jumps, np.ones((n_comp,))) / 2).ravel()` of
`anaqpsk`; note the missing `[:n_points]` truncation. -/
noncomputable def anaqpskPm0 (n_points : ℕ) (onc : Option ℕ) (s : ℕ → ℚ) : List ℝ :=
  (repeatEach (anaqpskJumps n_points onc s) (ncompOf n_points 5 onc)).map
    (fun j : ℤ => Real.pi * (j : ℝ) / 2)

/-- `tm = np.arange(n_points) - 1` of `anaqpsk`. -/
def anaqpskTm (n_points : ℕ) : List ℤ :=
  (List.range n_points).map (fun t : ℕ => (t : ℤ) - 1)

/-- `anaqpsk(n_points, n_comp, f0)`: quaternary phase shift keying signal and its
phase law.  Because `pm0` is not truncated, the broadcast sum
`pm = 2*pi*f0*tm + pm0` fails whenever the lengths differ (and neither is 1). -/
noncomputable def anaqpsk (n_points : ℕ) (onc : Option ℕ) (f0 : ℚ) (s : ℕ → ℚ) :
    Except Err (List ℂ × List ℝ) :=
  if f0 < 0 ∨ f0 > 1/2 then .error .invalidParameterError
  else if ncompOf n_points 5 onc = 0 then .error .zeroDivisionError
  else
    (bcZip (fun (t : ℤ) (p : ℝ) => 2 * Real.pi * (f0 : ℝ) * (t : ℝ) + p)
        (anaqpskTm n_points) (anaqpskPm0 n_points onc s)).map
      (fun pm => (pm.map (fun p : ℝ => Complex.exp (Complex.I * (p : ℂ))),
        anaqpskPm0 n_points onc s))

/-- `np.fft.ifft(y, n)`: zero-pad (or truncate) `y` to length `n`, then take the
inverse discrete Fourier transform. -/
noncomputable def ifftL (y : List ℂ) (n : ℕ) : List ℂ :=
  if h : n = 0 then []
  else
    haveI : NeZero n := ⟨h⟩
    (List.range n).map
      (fun k : ℕ => (LinearEquiv.symm dft) (fun j : ZMod n => y.getD j.val 0) ((k : ℕ) : ZMod n))

/-- `anasing(n_points, t0, h)`: Lipschitz singularity.  In the `h ≤ 0` branch the
source allocates `np.zeros((n_points / 2,), dtype=float)` (Python-2 truncating
division) and assigns into `y[:n_points / 2]` the complex expression over `f`;
the assignment broadcasts only when `len(f)` equals the slice length or is 1, and
the float dtype keeps only the real part (numpy `ComplexWarning`).  The float
divisions by a zero maximum that numpy turns into NaNs (with a warning, not an
error) are modelled by `ℝ`'s zero division. -/
noncomputable def anasing (n_points : ℕ) (ot0 : Option ℚ) (h : ℚ) :
    Except Err (List ℂ) :=
  let t0 := ot0.getD ((n_points / 2 : ℕ) : ℚ)
  if h ≤ 0 then
    let step : ℚ := 1 / n_points
    let f := arangeQ step (1/2 - 1/(n_points : ℚ) + 2 * step) step
    let ylen := n_points / 2
    if f.length = ylen ∨ f.length = 1 then
      let fvals : List ℂ := f.map
        (fun q : ℚ => (((q : ℝ) ^ ((-1 - h : ℚ) : ℝ) : ℝ) : ℂ) ^
          Complex.exp (-Complex.I * 2 * Real.pi * (q : ℂ) * ((t0 : ℂ) - 1)))
      let y : List ℝ :=
        if f.length = 1 then List.replicate ylen ((fvals.getD 0 0).re)
        else fvals.map Complex.re
      let x0 : List ℝ := (ifftL (y.map (fun r : ℝ => (r : ℂ))) n_points).map Complex.re
      let x1 := x0.map (fun v => v / npMax x0)
      let x2 := x1.map (fun v => v - npSign (npMin x1 * |npMin x1|))
      .ok (hilbertL x2)
    else .error .broadcastError
  else
    let x : List ℝ := (List.range n_points).map
      (fun u : ℕ => |(u : ℝ) - (t0 : ℝ)| ^ (h : ℝ))
    .ok (hilbertL (x.map (fun v => npMax x - v)))

/-- `anastep(n_points, ti)`: analytic projection of the unit step; the underlying
real signal is the indicator of `t > ti`, so the step begins strictly after `ti`. -/
noncomputable def anastep (n_points : ℕ) (oti : Option ℚ) : List ℂ :=
  let ti := oti.getD ((n_points / 2 : ℕ) : ℚ)
  let x : List ℝ := (List.range n_points).map (fun t : ℕ => if ti < (t : ℚ) then 1 else 0)
  hilbertL x

/-! A Python call runs with the process-wide RNG in some ambient state; the
following wrappers model "call the generator while the global RNG stream is
`s`".  The bodies of `anapulse`, `anastep` and `anasing` contain no `np.random`
call, so their executions ignore that state entirely — which is why their
embeddings above do not mention the stream. -/

/-- `anapulse` called with the process-wide RNG in state `s` (never read). -/
noncomputable def anapulseCall (n_points : ℕ) (oti : Option ℚ) (_s : ℕ → ℚ) : List ℂ :=
  anapulse n_points oti

/-- `anastep` called with the process-wide RNG in state `s` (never read). -/
noncomputable def anastepCall (n_points : ℕ) (oti : Option ℚ) (_s : ℕ → ℚ) : List ℂ :=
  anastep n_points oti

/-- `anasing` called with the process-wide RNG in state `s` (never read). -/
noncomputable def anasingCall (n_points : ℕ) (ot0 : Option ℚ) (h : ℚ) (_s : ℕ → ℚ) :
    Except Err (List ℂ) :=
  anasing n_points ot0 h

/-! ## The caller-side post-processing of the example script
(`src/doc/examples/introductory_examples/4_2_5_bat_sonar_wv.py`, lines 25-27). -/

/-- `tfr = np.abs(tfr) ** 2; threshold = np.amax(tfr) * 0.01; tfr[tfr <= threshold] = 0.0`. -/
noncomputable def wvPostprocess (tfr : List ℂ) : List ℝ :=
  let sq := tfr.map (fun z => Complex.abs z ^ 2)
  let threshold := npMax sq * (1 / 100)
  sq.map (fun v => if v ≤ threshold then 0 else v)

/-! ## The core distribution engine

The engine itself (`tftb.processing.cohen.wigner_ville`, called by the example
script) is not under `src/`; the following is modelled from the spec, §4.2-§4.5. -/

/-- Modelled from the spec (§4.3): the bilinear product
`signal[t+tau] * conj(signal[t-tau])` at time `t` and lag `tau`. -/
noncomputable def bilinearLag (signal : List ℂ) (t : ℕ) (tau : ℤ) : ℂ :=
  signal.getD ((t : ℤ) + tau).toNat 0 * (starRingEnd ℂ) (signal.getD ((t : ℤ) - tau).toNat 0)

/-- Modelled from the spec (§4.2-§4.4): the length-`nfft` DC-aligned lag buffer at
time `t`; the usable lag is clipped to `min(t, N-1-t)` at the signal's edges and
to the NFFT frame, lag 0 sits at index 0, and negative lags wrap to the top
indices (the standard fftshift convention of §4.4). -/
noncomputable def lagBuffer (signal : List ℂ) (nfft t : ℕ) : List ℂ :=
  let N := signal.length
  let taumax := min (min t (N - 1 - t)) ((nfft - 1) / 2)
  (List.range nfft).map (fun i : ℕ =>
    if i ≤ taumax then bilinearLag signal t (i : ℤ)
    else if nfft ≤ i + taumax then bilinearLag signal t ((i : ℤ) - (nfft : ℤ))
    else 0)

/-- Modelled from the spec (§4.4): the discrete Fourier transform of a buffer
along the lag axis. -/
noncomputable def dftL (buf : List ℂ) : List ℂ :=
  (List.range buf.length).map (fun k : ℕ =>
    ∑ j ∈ Finset.range buf.length,
      buf.getD j 0 * Complex.exp (-(2 * Real.pi * Complex.I * (j : ℂ) * (k : ℂ))
        / (buf.length : ℂ)))

/-- Modelled from the spec (§4.5): the public `compute(signal, time_instants,
n_fft)` entry point; validates the inputs, then produces one length-`n_fft`
column per requested time instant (the result is the list of columns, so a
`(n_fft, len(time_instants))`-shaped array). -/
noncomputable def compute (signal : List ℂ) (instants : List ℕ) (nfft : ℕ) :
    Except Err (List (List ℂ)) :=
  if signal.length = 0 then .error .invalidSignalError
  else if nfft = 0 ∨ instants.any (fun t => decide (signal.length ≤ t)) then
    .error .invalidParameterError
  else .ok (instants.map (fun t => dftL (lagBuffer signal nfft t)))

/-- Modelled from the spec: `wigner_ville(signal)` as called by the example
script, with the spec's defaults — time instants `0..N-1` and `n_fft = N`. -/
noncomputable def wignerVille (signal : List ℂ) : Except Err (List (List ℂ)) :=
  compute signal (List.range signal.length) signal.length

/-! ## Supporting lemmas -/

theorem getD_map_range {α : Type _} (f : ℕ → α) (d : α) (n t : ℕ) (ht : t < n) :
    (((List.range n).map f).getD t d) = f t := by
  rw [List.getD_eq_getElem _ _ (by simpa using ht)]
  simp

theorem fmconst_fst_length (n : ℕ) (f0 : ℚ) (c : ℕ) : (fmconst n f0 c).1.length = n := by
  simp [fmconst]

theorem ifftL_length (y : List ℂ) (n : ℕ) : (ifftL y n).length = n := by
  unfold ifftL
  split <;> simp_all

theorem lagBuffer_length (signal : List ℂ) (nfft t : ℕ) :
    (lagBuffer signal nfft t).length = nfft := by
  simp [lagBuffer]

theorem dftL_length (buf : List ℂ) : (dftL buf).length = buf.length := by
  simp [dftL]

theorem le_foldr_max (d : ℝ) (l : List ℝ) : d ≤ l.foldr max d := by
  induction l with
  | nil => simp
  | cons a t ih => exact le_trans ih (by simp [le_max_iff, le_refl])

theorem mem_le_foldr_max (d : ℝ) (l : List ℝ) (v : ℝ) (hv : v ∈ l) :
    v ≤ l.foldr max d := by
  induction l with
  | nil => cases hv
  | cons a t ih =>
      rcases List.mem_cons.mp hv with h | h
      · subst h
        simp
      · exact le_trans (ih h) (by simp)

theorem foldr_max_le (d : ℝ) (l : List ℝ) (b : ℝ) (hd : d ≤ b) (hl : ∀ v ∈ l, v ≤ b) :
    l.foldr max d ≤ b := by
  induction l with
  | nil => simpa using hd
  | cons a t ih =>
      simp only [List.foldr_cons, max_le_iff]
      exact ⟨hl a (by simp), ih (fun v hv => hl v (by simp [hv]))⟩

theorem foldr_max_mem (d : ℝ) (l : List ℝ) : l.foldr max d ∈ l ∨ l.foldr max d = d := by
  induction l with
  | nil => right; rfl
  | cons a t ih =>
      simp only [List.foldr_cons]
      rcases le_total (t.foldr max d) a with h | h
      · left
        rw [max_eq_left h]
        simp
      · rw [max_eq_right h]
        rcases ih with h2 | h2
        · left; simp [h2]
        · right; exact h2

theorem npMax_mem (l : List ℝ) (h : l ≠ []) : npMax l ∈ l := by
  match l with
  | a :: t =>
      unfold npMax
      rcases foldr_max_mem ((a :: t).getD 0 0) (a :: t) with h2 | h2
      · exact h2
      · rw [h2]
        simp

theorem le_npMax (l : List ℝ) (v : ℝ) (hv : v ∈ l) : v ≤ npMax l :=
  mem_le_foldr_max _ l v hv

/-! ## Claims -/

/-- C1: for all valid inputs the spec-modelled `compute` returns a TFR array of
shape exactly `(n_fft, len(time_instants))` — here, a list of
`len(time_instants)` columns of length `n_fft` each — and in particular the
example's default call on a 128-sample analytic signal yields a 128-by-128 grid. -/
theorem compute_shape :
    (∀ (signal : List ℂ) (instants : List ℕ) (nfft : ℕ),
      signal ≠ [] → 0 < nfft → (∀ t ∈ instants, t < signal.length) →
      ∃ tfr, compute signal instants nfft = .ok tfr ∧
        tfr.length = instants.length ∧ ∀ col ∈ tfr, col.length = nfft) ∧
    (∀ signal : List ℂ, signal.length = 128 →
      ∃ tfr, wignerVille signal = .ok tfr ∧
        tfr.length = 128 ∧ ∀ col ∈ tfr, col.length = 128) := by
  have main : ∀ (signal : List ℂ) (instants : List ℕ) (nfft : ℕ),
      signal ≠ [] → 0 < nfft → (∀ t ∈ instants, t < signal.length) →
      ∃ tfr, compute signal instants nfft = .ok tfr ∧
        tfr.length = instants.length ∧ ∀ col ∈ tfr, col.length = nfft := by
    intro signal instants nfft hs hn ht
    have hlen : signal.length ≠ 0 := by
      simpa [List.length_eq_zero] using hs
    have hany : instants.any (fun t => decide (signal.length ≤ t)) = false := by
      rw [List.any_eq_false]
      intro t htmem
      simpa using Nat.not_le.mpr (ht t htmem)
    refine ⟨instants.map (fun t => dftL (lagBuffer signal nfft t)), ?_, ?_, ?_⟩
    · unfold compute
      rw [if_neg hlen, if_neg]
      simp only [hany, Nat.pos_iff_ne_zero.mp hn]
      simp
    · simp
    · intro col hcol
      rcases List.mem_map.mp hcol with ⟨t, _, rfl⟩
      rw [dftL_length, lagBuffer_length]
  refine ⟨main, fun signal hlen => ?_⟩
  have h1 : signal ≠ [] := by
    intro h
    rw [h] at hlen
    simp at hlen
  have h2 := main signal (List.range signal.length) signal.length h1
    (by omega) (fun t htm => by simpa using htm)
  rw [hlen] at h2
  unfold wignerVille
  rw [hlen]
  simpa using h2

/-- C1 witness: the shape property at two concrete inputs. -/
theorem compute_shape_witness :
    (∃ tfr, compute [1] [0] 1 = .ok tfr ∧ tfr.length = 1 ∧ ∀ col ∈ tfr, col.length = 1) ∧
    (∃ tfr, wignerVille (List.replicate 128 1) = .ok tfr ∧ tfr.length = 128 ∧
      ∀ col ∈ tfr, col.length = 128) :=
  ⟨compute_shape.1 [1] [0] 1 (by simp) (by norm_num) (by simp),
   compute_shape.2 (List.replicate 128 1) (by simp)⟩

/-- C7: the example's caller-side post-processing (squared magnitude, then
zeroing entries at or below 1% of the maximum) yields an array in which every
entry is 0 or strictly greater than 1% of the maximum squared magnitude, and the
maximal entry is unchanged. -/
theorem wvPostprocess_spec (tfr : List ℂ) (hne : tfr ≠ []) :
    (∀ v ∈ wvPostprocess tfr,
      v = 0 ∨ npMax (tfr.map (fun z => Complex.abs z ^ 2)) * (1 / 100) < v) ∧
    npMax (wvPostprocess tfr) = npMax (tfr.map (fun z => Complex.abs z ^ 2)) := by
  set sq : List ℝ := tfr.map (fun z => Complex.abs z ^ 2) with hsq
  have hsqne : sq ≠ [] := by
    simpa [hsq] using hne
  have hsq_nonneg : ∀ v ∈ sq, 0 ≤ v := by
    intro v hv
    rcases List.mem_map.mp hv with ⟨z, _, rfl⟩
    positivity
  set M : ℝ := npMax sq with hM
  have hM_mem : M ∈ sq := npMax_mem sq hsqne
  have hM_nonneg : 0 ≤ M := hsq_nonneg M hM_mem
  have hmask : ∀ u : ℝ, (if u ≤ M * (1/100) then (0:ℝ) else u) = 0 ∨
      (M * (1/100) < (if u ≤ M * (1/100) then (0:ℝ) else u)) := by
    intro u
    split
    · exact Or.inl rfl
    · exact Or.inr (by linarith [not_le.mp (by assumption)])
  have hpost : wvPostprocess tfr = sq.map (fun v => if v ≤ M * (1/100) then 0 else v) := by
    rfl
  constructor
  · intro v hv
    rw [hpost] at hv
    rcases List.mem_map.mp hv with ⟨u, _, rfl⟩
    exact hmask u
  · -- the maximal entry survives the thresholding, and nothing exceeds it
    have hMmask : (if M ≤ M * (1/100) then (0:ℝ) else M) = M := by
      rcases eq_or_lt_of_le hM_nonneg with h0 | h0
      · rw [if_pos (by linarith)]
        linarith
      · rw [if_neg (by push_neg; linarith)]
    have hM_mem_res : M ∈ wvPostprocess tfr := by
      rw [hpost]
      exact List.mem_map.mpr ⟨M, hM_mem, hMmask⟩
    have hres_ne : wvPostprocess tfr ≠ [] := by
      intro h
      rw [h] at hM_mem_res
      cases hM_mem_res
    have hres_le : ∀ v ∈ wvPostprocess tfr, v ≤ M := by
      intro v hv
      rw [hpost] at hv
      rcases List.mem_map.mp hv with ⟨u, hu, rfl⟩
      split
      · exact hM_nonneg
      · exact le_npMax sq u hu
    have hub : npMax (wvPostprocess tfr) ≤ M := by
      unfold npMax
      refine foldr_max_le _ _ _ ?_ hres_le
      refine hres_le _ ?_
      match hres : wvPostprocess tfr, hres_ne with
      | a :: t, _ => simp
    have hlb : M ≤ npMax (wvPostprocess tfr) := le_npMax _ M hM_mem_res
    linarith

/-- C7 witness: the post-processing property at a concrete one-entry array. -/
theorem wvPostprocess_spec_witness :
    (∀ v ∈ wvPostprocess [Complex.I],
      v = 0 ∨ npMax ([Complex.I].map (fun z => Complex.abs z ^ 2)) * (1 / 100) < v) ∧
    npMax (wvPostprocess [Complex.I]) =
      npMax ([Complex.I].map (fun z => Complex.abs z ^ 2)) :=
  wvPostprocess_spec [Complex.I] (by simp)

theorem hilbertFun_const_zero (N : ℕ) [NeZero N] (k : ZMod N) :
    hilbertFun N (fun _ => 0) k = 0 := by
  unfold hilbertFun
  have h0 : (fun m : ZMod N => (((0:ℝ) : ℝ) : ℂ)) = (0 : ZMod N → ℂ) := by
    funext m
    simp
  have h1 : (fun j : ZMod N =>
      hcoef N j * dft (fun m : ZMod N => (((0:ℝ) : ℝ) : ℂ)) j) = (0 : ZMod N → ℂ) := by
    funext j
    rw [h0, map_zero]
    simp
  rw [h1, map_zero]
  rfl

/-- C6: for `n ≥ 1` and an integer impulse position `ti` with `0 ≤ ti ≤ n-1`,
the real part of `anapulse(n, ti)` is the unit impulse: 1 at index `ti`, 0 at
every other index (the analytic projection keeps the real signal as real part). -/
theorem anapulse_re (n ti : ℕ) (_hti : ti < n) (t : ℕ) (ht : t < n) :
    ((anapulse n (some (ti : ℚ))).getD t 0).re = if t = ti then 1 else 0 := by
  simp only [anapulse, Option.getD_some]
  rw [hilbertL_getD_re _ t (by simpa using ht), getD_map_range _ _ _ _ ht]
  by_cases h : t = ti
  · rw [if_pos h, if_pos (by exact_mod_cast h)]
  · rw [if_neg h, if_neg (fun hc => h (by exact_mod_cast hc))]

/-- C6 witness: the impulse property at `n = 4`, `ti = 2`. -/
theorem anapulse_re_witness :
    (((anapulse 4 (some ((2:ℕ) : ℚ))).getD 2 0).re = if 2 = 2 then (1:ℝ) else 0) ∧
    (((anapulse 4 (some ((2:ℕ) : ℚ))).getD 1 0).re = if 1 = 2 then (1:ℝ) else 0) :=
  ⟨anapulse_re 4 2 (by norm_num) 2 (by norm_num),
   anapulse_re 4 2 (by norm_num) 1 (by norm_num)⟩

/-- C8: for every integer `ti`, the real part of `anastep(n, ti)` is 0 at every
index `t ≤ ti` (including `ti` itself) and 1 at every index `t > ti`: the unit
step begins strictly after `ti`. -/
theorem anastep_re (n : ℕ) (ti : ℤ) (t : ℕ) (ht : t < n) :
    ((anastep n (some (ti : ℚ))).getD t 0).re = if (t : ℤ) ≤ ti then 0 else 1 := by
  simp only [anastep, Option.getD_some]
  rw [hilbertL_getD_re _ t (by simpa using ht), getD_map_range _ _ _ _ ht]
  by_cases h : (t : ℤ) ≤ ti
  · rw [if_pos h, if_neg (by push_neg; exact_mod_cast h)]
  · rw [if_neg h, if_pos (by exact_mod_cast lt_of_not_le h)]

/-- C8 witness: the step property around `ti = 1` for `n = 4`. -/
theorem anastep_re_witness :
    (((anastep 4 (some ((1:ℤ) : ℚ))).getD 1 0).re = if (1 : ℤ) ≤ 1 then (0:ℝ) else 1) ∧
    (((anastep 4 (some ((1:ℤ) : ℚ))).getD 2 0).re = if (2 : ℤ) ≤ 1 then (0:ℝ) else 1) :=
  ⟨anastep_re 4 1 1 (by norm_num), anastep_re 4 1 2 (by norm_num)⟩

/-- C10: `anapulse` performs no range validation: for any `ti` matching no sample
index (in particular any `ti` outside `[0, n-1]`), the call completes with no
error and silently returns the all-zero complex sequence of length `n_points`. -/
theorem anapulse_no_validation (n : ℕ) (ti : ℚ)
    (hmiss : ∀ t : ℕ, t < n → (t : ℚ) ≠ ti) :
    (anapulse n (some ti)).length = n ∧ ∀ z ∈ anapulse n (some ti), z = 0 := by
  have hxdef : anapulse n (some ti) =
      hilbertL ((List.range n).map (fun t : ℕ => if (t : ℚ) = ti then (1:ℝ) else 0)) := by
    simp only [anapulse, Option.getD_some]
  rw [hxdef]
  constructor
  · rw [hilbertL_length]
    simp
  · intro z hz
    unfold hilbertL at hz
    by_cases hn : ((List.range n).map
        (fun t : ℕ => if (t : ℚ) = ti then (1:ℝ) else 0)).length = 0
    · rw [dif_pos hn] at hz
      cases hz
    · rw [dif_neg hn] at hz
      rcases List.mem_map.mp hz with ⟨u, _, rfl⟩
      haveI : NeZero ((List.range n).map
          (fun t : ℕ => if (t : ℚ) = ti then (1:ℝ) else 0)).length := ⟨hn⟩
      have hfun : (fun j : ZMod ((List.range n).map
            (fun t : ℕ => if (t : ℚ) = ti then (1:ℝ) else 0)).length =>
          ((List.range n).map (fun t : ℕ => if (t : ℚ) = ti then (1:ℝ) else 0)).getD j.val 0)
          = fun _ => (0:ℝ) := by
        funext j
        have hjv : j.val < n := by
          have := ZMod.val_lt j
          simpa using this
        rw [getD_map_range _ _ _ _ (by simpa using hjv)]
        rw [if_neg (hmiss j.val hjv)]
      rw [hfun, hilbertFun_const_zero]

/-- C10 witness: `anapulse(4, -1)` — impulse position out of range — returns
four exact zeros. -/
theorem anapulse_no_validation_witness :
    (anapulse 4 (some (-1))).length = 4 ∧ ∀ z ∈ anapulse 4 (some (-1)), z = 0 :=
  anapulse_no_validation 4 (-1) (by
    intro t ht he
    have h0 : (0:ℚ) ≤ (t : ℚ) := Nat.cast_nonneg t
    rw [he] at h0
    norm_num at h0)

theorem abs_exp_I_mul_real (r : ℝ) :
    Complex.abs (Complex.exp (Complex.I * (r : ℂ))) = 1 := by
  rw [Complex.abs_exp]
  simp

theorem anafskIflaw_length (n : ℕ) (onc : Option ℕ) (Nbf : ℕ) (s : ℕ → ℚ) :
    (anafskIflaw n onc Nbf s).length = mOf n 5 onc * ncompOf n 5 onc := by
  simp [anafskIflaw, repeatEach_length, anafskFreqs]

theorem anaqpskPm0_length (n : ℕ) (onc : Option ℕ) (s : ℕ → ℚ) :
    (anaqpskPm0 n onc s).length = mOf n 5 onc * ncompOf n 5 onc := by
  simp [anaqpskPm0, repeatEach_length, anaqpskJumps]

theorem anaqpskTm_length (n : ℕ) : (anaqpskTm n).length = n := by
  simp [anaqpskTm]

/-- C9: for all valid inputs, every sample of the first output of `anafsk` and of
`anaqpsk` has modulus exactly 1 — they are complex exponentials of real phases. -/
theorem fsk_qpsk_unit_modulus :
    (∀ (n : ℕ) (onc : Option ℕ) (Nbf : ℕ) (s : ℕ → ℚ) (p : List ℂ × List ℚ),
      anafsk n onc Nbf s = .ok p → ∀ z ∈ p.1, Complex.abs z = 1) ∧
    (∀ (n : ℕ) (onc : Option ℕ) (f0 : ℚ) (s : ℕ → ℚ) (p : List ℂ × List ℝ),
      anaqpsk n onc f0 s = .ok p → ∀ z ∈ p.1, Complex.abs z = 1) := by
  constructor
  · intro n onc Nbf s p hok z hz
    by_cases hnc : ncompOf n 5 onc = 0
    · unfold anafsk at hok
      rw [if_pos hnc] at hok
      cases hok
    · unfold anafsk at hok
      rw [if_neg hnc, Except.ok.injEq] at hok
      subst hok
      rcases List.mem_map.mp hz with ⟨c, _, rfl⟩
      have harg : Complex.I * 2 * (Real.pi : ℂ) * ((c : ℚ) : ℂ)
          = Complex.I * (((2 * Real.pi * ((c : ℚ) : ℝ) : ℝ)) : ℂ) := by
        push_cast
        ring
      rw [harg, abs_exp_I_mul_real]
  · intro n onc f0 s p hok z hz
    by_cases hf : f0 < 0 ∨ f0 > 1/2
    · unfold anaqpsk at hok
      rw [if_pos hf] at hok
      cases hok
    by_cases hnc : ncompOf n 5 onc = 0
    · unfold anaqpsk at hok
      rw [if_neg hf, if_pos hnc] at hok
      cases hok
    unfold anaqpsk at hok
    rw [if_neg hf, if_neg hnc] at hok
    rcases hbc : bcZip (fun (t : ℤ) (q : ℝ) => 2 * Real.pi * (f0 : ℝ) * (t : ℝ) + q)
        (anaqpskTm n) (anaqpskPm0 n onc s) with e | pm
    · rw [hbc] at hok
      simp [Except.map] at hok
    · rw [hbc] at hok
      simp only [Except.map, Except.ok.injEq] at hok
      subst hok
      rcases List.mem_map.mp hz with ⟨q, _, rfl⟩
      exact abs_exp_I_mul_real q

/-- C9 witness: a concrete sample of each generator's first output has modulus 1. -/
theorem fsk_qpsk_unit_modulus_witness :
    Complex.abs (((anafsk 1 (some 1) 4 (fun _ => 0)).toOption.getD ([], [])).1.headD 1) = 1 ∧
    Complex.abs (((anaqpsk 1 (some 1) 0 (fun _ => 0)).toOption.getD ([], [])).1.headD 1) = 1 := by
  constructor
  · rcases hE : anafsk 1 (some 1) 4 (fun _ => 0) with e | p
    · exfalso
      unfold anafsk at hE
      rw [if_neg (by decide)] at hE
      cases hE
    · refine fsk_qpsk_unit_modulus.1 1 (some 1) 4 (fun _ => 0) p hE _ ?_
      simp only [Except.toOption, Option.getD]
      have hlen : p.1.length = 1 := by
        unfold anafsk at hE
        rw [if_neg (by decide), Except.ok.injEq] at hE
        rw [← hE]
        simp only [List.length_map, cumsum_length, anafskIflaw_length]
        decide
      rcases hp : p.1 with _ | ⟨a, rest⟩
      · rw [hp] at hlen
        simp at hlen
      · simp
  · rcases hE : anaqpsk 1 (some 1) 0 (fun _ => 0) with e | p
    · exfalso
      unfold anaqpsk at hE
      rw [if_neg (by norm_num), if_neg (by decide)] at hE
      rw [bcZip_eq_length _ _ _ (by
        rw [anaqpskTm_length, anaqpskPm0_length]
        decide)] at hE
      simp [Except.map] at hE
    · refine fsk_qpsk_unit_modulus.2 1 (some 1) 0 (fun _ => 0) p hE _ ?_
      simp only [Except.toOption, Option.getD]
      have hlen : p.1.length = 1 := by
        unfold anaqpsk at hE
        rw [if_neg (by norm_num), if_neg (by decide)] at hE
        rw [bcZip_eq_length _ _ _ (by
          rw [anaqpskTm_length, anaqpskPm0_length]
          decide)] at hE
        simp only [Except.map, Except.ok.injEq] at hE
        rw [← hE]
        simp only [List.length_map, List.length_zipWith, anaqpskTm_length, anaqpskPm0_length]
        decide
      rcases hp : p.1 with _ | ⟨a, rest⟩
      · rw [hp] at hlen
        simp at hlen
      · simp

/-- C2 (code bug, failing input): `anafsk(11)` with all parameters at their
defaults completes and returns a first output of `m * n_comp = 12` samples, not
11 — the `[:n_points]` truncation used by `anaask`/`anabpsk` is missing from
`anafsk` (and from `anaqpsk`, where the same untruncated length instead makes
the broadcast fail). -/
theorem anafsk_11_returns_12 :
    (anafsk 11 none 4 (fun _ => 0)).toOption.map (fun p => p.1.length) = some 12 := by
  have hm : mOf 11 5 none = 6 := by
    show ⌈(11 : ℚ) / (((11 / 5 : ℕ) : ℕ) : ℚ)⌉₊ = 6
    norm_num [Nat.ceil_eq_iff]
  unfold anafsk
  rw [if_neg (by decide)]
  simp only [Except.toOption, Option.map]
  rw [List.length_map, cumsum_length, anafskIflaw_length, hm]
  rfl

theorem anaaskAm_length_of_dvd (n c : ℕ) (s : ℕ → ℚ) (hdvd : c ∣ n) :
    (anaaskAm n (some c) s).length = n := by
  by_cases hc : c = 0
  · subst hc
    rcases hdvd with ⟨k, hk⟩
    simp [anaaskAm, hk]
  · have hmc : mOf n 2 (some c) * ncompOf n 2 (some c) = n := by
      simp [mOf, ncompOf, Nat.div_mul_cancel hdvd]
    simp [anaaskAm, repeatEach_length, anaaskJumps, hmc]

theorem anabpskAm_length_of_dvd (n c : ℕ) (s : ℕ → ℚ) (hdvd : c ∣ n) :
    (anabpskAm n (some c) s).length = n := by
  by_cases hc : c = 0
  · subst hc
    rcases hdvd with ⟨k, hk⟩
    simp [anabpskAm, hk]
  · have hmc : mOf n 5 (some c) * ncompOf n 5 (some c) = n := by
      simp [mOf, ncompOf, Nat.div_mul_cancel hdvd]
    simp [anabpskAm, repeatEach_length, anabpskJumps, hmc]

/-- C3 (counterexample): `anaqpsk(3, n_comp=2, f0=1/4)` has every parameter in
its documented domain — in particular `f0 ∈ [0, 0.5]` — yet raises: the
untruncated `pm0` has `m·n_comp = 2` entries against `n_points = 3`, so the
broadcast sum fails with `ValueError`. -/
theorem anaqpsk_valid_f0_still_fails :
    anaqpsk 3 (some 2) (1/4) (fun _ => 0) = .error .broadcastError := by
  have h2 : (anaqpskPm0 3 (some 2) (fun _ => 0)).length = 2 := by
    rw [anaqpskPm0_length]
    decide
  obtain ⟨a, b, hab⟩ : ∃ a b, anaqpskPm0 3 (some 2) (fun _ => 0) = [a, b] := by
    rcases hp : anaqpskPm0 3 (some 2) (fun _ => 0) with _ | ⟨a, t⟩
    · rw [hp] at h2
      simp at h2
    · rcases t with _ | ⟨b, t2⟩
      · rw [hp] at h2
        simp at h2
      · rcases t2 with _ | ⟨c, t3⟩
        · exact ⟨a, b, rfl⟩
        · rw [hp] at h2
          simp at h2
  have htm : anaqpskTm 3 = [-1, 0, 1] := by decide
  unfold anaqpsk
  rw [if_neg (by norm_num), if_neg (by decide)]
  unfold bcZip
  rw [htm, hab]
  rfl

/-- C3 (amended): each of `anaask`, `anabpsk`, `anaqpsk` fails with the
parameter error precisely when `f0` lies outside `[0, 0.5]`, for every
`n_points`, every `n_comp` (explicit or defaulted) and every RNG state — the
`f0` check runs first, and no later failure raises that error kind.
Additionally, when the component length `n_comp` is a positive divisor of
`n_points`, an `f0` in range raises no error at all. -/
theorem f0_validation (n : ℕ) (onc : Option ℕ) (f0 : ℚ) (s : ℕ → ℚ) :
    ((anaask n onc f0 s = .error .invalidParameterError) ↔ (f0 < 0 ∨ 1/2 < f0)) ∧
    ((anabpsk n onc f0 s = .error .invalidParameterError) ↔ (f0 < 0 ∨ 1/2 < f0)) ∧
    ((anaqpsk n onc f0 s = .error .invalidParameterError) ↔ (f0 < 0 ∨ 1/2 < f0)) ∧
    (∀ c : ℕ, onc = some c → 0 < c → c ∣ n → 0 ≤ f0 → f0 ≤ 1/2 →
      (∃ p, anaask n onc f0 s = .ok p) ∧
      (∃ p, anabpsk n onc f0 s = .ok p) ∧
      (∃ p, anaqpsk n onc f0 s = .ok p)) := by
  have hnotparam : ∀ e : Err, e = .broadcastError ∨ e = .zeroDivisionError →
      ¬ e = Err.invalidParameterError := by
    intro e he
    rcases he with he | he <;> subst he <;> decide
  refine ⟨⟨fun he => ?_, fun hf => ?_⟩, ⟨fun he => ?_, fun hf => ?_⟩,
    ⟨fun he => ?_, fun hf => ?_⟩, fun c hceq hc hdvd h0 h12 => ?_⟩
  · by_cases hf : f0 < 0 ∨ f0 > 1/2
    · exact hf
    · exfalso
      unfold anaask at he
      rw [if_neg hf] at he
      by_cases hnc : ncompOf n 2 onc = 0
      · rw [if_pos hnc] at he
        exact hnotparam _ (Or.inr rfl) (Except.error.inj he)
      · rw [if_neg hnc] at he
        rcases hbc : bcZip (fun (a : ℚ) (z : ℂ) => (a : ℂ) * z)
            (anaaskAm n onc s) (fmconst n f0 1).1 with e | y
        · rw [hbc] at he
          simp only [Except.map] at he
          exact hnotparam _ (Or.inl (bcZip_error_eq _ _ _ _ hbc)) (Except.error.inj he)
        · rw [hbc] at he
          simp only [Except.map] at he
          cases he
  · unfold anaask
    rw [if_pos hf]
  · by_cases hf : f0 < 0 ∨ f0 > 1/2
    · exact hf
    · exfalso
      unfold anabpsk at he
      rw [if_neg hf] at he
      by_cases hnc : ncompOf n 5 onc = 0
      · rw [if_pos hnc] at he
        exact hnotparam _ (Or.inr rfl) (Except.error.inj he)
      · rw [if_neg hnc] at he
        rcases hbc : bcZip (fun (a : ℚ) (z : ℂ) => (a : ℂ) * z)
            (anabpskAm n onc s) (fmconst n f0 1).1 with e | y
        · rw [hbc] at he
          simp only [Except.map] at he
          exact hnotparam _ (Or.inl (bcZip_error_eq _ _ _ _ hbc)) (Except.error.inj he)
        · rw [hbc] at he
          simp only [Except.map] at he
          cases he
  · unfold anabpsk
    rw [if_pos hf]
  · by_cases hf : f0 < 0 ∨ f0 > 1/2
    · exact hf
    · exfalso
      unfold anaqpsk at he
      rw [if_neg hf] at he
      by_cases hnc : ncompOf n 5 onc = 0
      · rw [if_pos hnc] at he
        exact hnotparam _ (Or.inr rfl) (Except.error.inj he)
      · rw [if_neg hnc] at he
        rcases hbc : bcZip (fun (t : ℤ) (p : ℝ) => 2 * Real.pi * (f0 : ℝ) * (t : ℝ) + p)
            (anaqpskTm n) (anaqpskPm0 n onc s) with e | pm
        · rw [hbc] at he
          simp only [Except.map] at he
          exact hnotparam _ (Or.inl (bcZip_error_eq _ _ _ _ hbc)) (Except.error.inj he)
        · rw [hbc] at he
          simp only [Except.map] at he
          cases he
  · unfold anaqpsk
    rw [if_pos hf]
  · subst hceq
    have hf : ¬ (f0 < 0 ∨ f0 > 1/2) := by
      rw [not_or]
      exact ⟨not_lt.mpr h0, not_lt.mpr h12⟩
    have hcnz2 : ¬ ncompOf n 2 (some c) = 0 := by
      simpa [ncompOf] using hc.ne'
    have hcnz5 : ¬ ncompOf n 5 (some c) = 0 := by
      simpa [ncompOf] using hc.ne'
    have hmc5 : mOf n 5 (some c) * ncompOf n 5 (some c) = n := by
      simp [mOf, ncompOf, Nat.div_mul_cancel hdvd]
    have hpm0 : (anaqpskPm0 n (some c) s).length = n := by
      rw [anaqpskPm0_length, hmc5]
    have hokask : anaask n (some c) f0 s =
        .ok (List.zipWith (fun (a : ℚ) (z : ℂ) => (a : ℂ) * z)
          (anaaskAm n (some c) s) (fmconst n f0 1).1, anaaskAm n (some c) s) := by
      unfold anaask
      rw [if_neg hf, if_neg hcnz2,
        bcZip_eq_length _ _ _ (by rw [anaaskAm_length_of_dvd n c s hdvd, fmconst_fst_length])]
      rfl
    have hokbpsk : anabpsk n (some c) f0 s =
        .ok (List.zipWith (fun (a : ℚ) (z : ℂ) => (a : ℂ) * z)
          (anabpskAm n (some c) s) (fmconst n f0 1).1, anabpskAm n (some c) s) := by
      unfold anabpsk
      rw [if_neg hf, if_neg hcnz5,
        bcZip_eq_length _ _ _ (by rw [anabpskAm_length_of_dvd n c s hdvd, fmconst_fst_length])]
      rfl
    have hokqpsk : anaqpsk n (some c) f0 s =
        .ok ((List.zipWith (fun (t : ℤ) (p : ℝ) => 2 * Real.pi * (f0 : ℝ) * (t : ℝ) + p)
          (anaqpskTm n) (anaqpskPm0 n (some c) s)).map
            (fun p : ℝ => Complex.exp (Complex.I * (p : ℂ))), anaqpskPm0 n (some c) s) := by
      unfold anaqpsk
      rw [if_neg hf, if_neg hcnz5,
        bcZip_eq_length _ _ _ (by rw [anaqpskTm_length, hpm0])]
      rfl
    exact ⟨⟨_, hokask⟩, ⟨_, hokbpsk⟩, ⟨_, hokqpsk⟩⟩

/-- C3 witness: the `f0` validation property at `n = 4`, `n_comp = 2`,
`f0 = 1/4`. -/
theorem f0_validation_witness :
    ((anaask 4 (some 2) (1/4) (fun _ => 0) = .error .invalidParameterError) ↔
      ((1:ℚ)/4 < 0 ∨ 1/2 < (1:ℚ)/4)) ∧
    ((anabpsk 4 (some 2) (1/4) (fun _ => 0) = .error .invalidParameterError) ↔
      ((1:ℚ)/4 < 0 ∨ 1/2 < (1:ℚ)/4)) ∧
    ((anaqpsk 4 (some 2) (1/4) (fun _ => 0) = .error .invalidParameterError) ↔
      ((1:ℚ)/4 < 0 ∨ 1/2 < (1:ℚ)/4)) ∧
    (∀ c : ℕ, some 2 = some c → 0 < c → c ∣ 4 → 0 ≤ (1:ℚ)/4 → (1:ℚ)/4 ≤ 1/2 →
      (∃ p, anaask 4 (some 2) (1/4) (fun _ => 0) = .ok p) ∧
      (∃ p, anabpsk 4 (some 2) (1/4) (fun _ => 0) = .ok p) ∧
      (∃ p, anaqpsk 4 (some 2) (1/4) (fun _ => 0) = .ok p)) :=
  f0_validation 4 (some 2) (1/4) (fun _ => 0)

/-- C4 (counterexample): two `anaask` calls with identical arguments return
different outputs when the process-wide RNG is in different states, so the
generators are not pure functions of their arguments. -/
theorem anaask_reads_global_rng :
    anaask 2 (some 1) (1/4) (fun _ => 0) ≠ anaask 2 (some 1) (1/4) (fun _ => 1/2) := by
  have hok : ∀ s : ℕ → ℚ, anaask 2 (some 1) (1/4) s =
      .ok (List.zipWith (fun (a : ℚ) (z : ℂ) => (a : ℂ) * z)
        (anaaskAm 2 (some 1) s) (fmconst 2 (1/4) 1).1, anaaskAm 2 (some 1) s) := by
    intro s
    unfold anaask
    rw [if_neg (by norm_num), if_neg (by decide),
      bcZip_eq_length _ _ _ (by
        rw [fmconst_fst_length]
        simp [anaaskAm, repeatEach_length, anaaskJumps]
        decide)]
    rfl
  intro heq
  have h1 : (anaask 2 (some 1) (1/4) (fun _ => 0)).toOption.map Prod.snd
      = some [0, 0] := by
    rw [hok (fun _ => 0)]
    simp only [Except.toOption, Option.map]
    have : anaaskAm 2 (some 1) (fun _ => 0) = [0, 0] := by decide
    rw [this]
  have h2 : (anaask 2 (some 1) (1/4) (fun _ => 1/2)).toOption.map Prod.snd
      = some [1/2, 1/2] := by
    rw [hok (fun _ => 1/2)]
    simp only [Except.toOption, Option.map]
    have : anaaskAm 2 (some 1) (fun _ => 1/2) = [1/2, 1/2] := by
      simp [anaaskAm, anaaskJumps, repeatEach, mOf, ncompOf, List.range_succ]
    rw [this]
  rw [heq, h2] at h1
  have : ((1:ℚ)/2) = 0 := by
    have := Option.some.inj h1
    exact (List.cons.injEq _ _ _ _).mp this |>.1
  norm_num at this

/-- C4 (amended): each generator's output is determined by its arguments
together with the RNG draws it consumes.  The four keying generators read
exactly the first `m` draws of the process-wide stream — any two states agreeing
there give identical outputs — while `anapulse`, `anastep` and `anasing` consume
no randomness at all: their executions are identical under every ambient RNG
state. -/
theorem generators_determined_by_consumed_draws :
    (∀ (n : ℕ) (onc : Option ℕ) (f0 : ℚ) (s₁ s₂ : ℕ → ℚ),
      (∀ i < mOf n 2 onc, s₁ i = s₂ i) → anaask n onc f0 s₁ = anaask n onc f0 s₂) ∧
    (∀ (n : ℕ) (onc : Option ℕ) (f0 : ℚ) (s₁ s₂ : ℕ → ℚ),
      (∀ i < mOf n 5 onc, s₁ i = s₂ i) → anabpsk n onc f0 s₁ = anabpsk n onc f0 s₂) ∧
    (∀ (n : ℕ) (onc : Option ℕ) (Nbf : ℕ) (s₁ s₂ : ℕ → ℚ),
      (∀ i < mOf n 5 onc, s₁ i = s₂ i) → anafsk n onc Nbf s₁ = anafsk n onc Nbf s₂) ∧
    (∀ (n : ℕ) (onc : Option ℕ) (f0 : ℚ) (s₁ s₂ : ℕ → ℚ),
      (∀ i < mOf n 5 onc, s₁ i = s₂ i) → anaqpsk n onc f0 s₁ = anaqpsk n onc f0 s₂) ∧
    (∀ (n : ℕ) (oti : Option ℚ) (s₁ s₂ : ℕ → ℚ),
      anapulseCall n oti s₁ = anapulseCall n oti s₂) ∧
    (∀ (n : ℕ) (oti : Option ℚ) (s₁ s₂ : ℕ → ℚ),
      anastepCall n oti s₁ = anastepCall n oti s₂) ∧
    (∀ (n : ℕ) (ot0 : Option ℚ) (h : ℚ) (s₁ s₂ : ℕ → ℚ),
      anasingCall n ot0 h s₁ = anasingCall n ot0 h s₂) := by
  refine ⟨fun n onc f0 s₁ s₂ hagree => ?_, fun n onc f0 s₁ s₂ hagree => ?_,
    fun n onc Nbf s₁ s₂ hagree => ?_, fun n onc f0 s₁ s₂ hagree => ?_,
    fun n oti s₁ s₂ => rfl, fun n oti s₁ s₂ => rfl, fun n ot0 h s₁ s₂ => rfl⟩
  · have hj : anaaskJumps n onc s₁ = anaaskJumps n onc s₂ := by
      unfold anaaskJumps
      apply List.map_congr_left
      intro i hi
      exact hagree i (by simpa using hi)
    have ham : anaaskAm n onc s₁ = anaaskAm n onc s₂ := by
      unfold anaaskAm
      rw [hj]
    unfold anaask
    rw [ham]
  · have hj : anabpskJumps n onc s₁ = anabpskJumps n onc s₂ := by
      unfold anabpskJumps
      apply List.map_congr_left
      intro i hi
      rw [hagree i (by simpa using hi)]
    have ham : anabpskAm n onc s₁ = anabpskAm n onc s₂ := by
      unfold anabpskAm
      rw [hj]
    unfold anabpsk
    rw [ham]
  · have hfr : anafskFreqs n onc Nbf s₁ = anafskFreqs n onc Nbf s₂ := by
      unfold anafskFreqs
      apply List.map_congr_left
      intro i hi
      rw [hagree i (by simpa using hi)]
    have hif : anafskIflaw n onc Nbf s₁ = anafskIflaw n onc Nbf s₂ := by
      unfold anafskIflaw
      rw [hfr]
    unfold anafsk
    rw [hif]
  · have hj : anaqpskJumps n onc s₁ = anaqpskJumps n onc s₂ := by
      unfold anaqpskJumps
      apply List.map_congr_left
      intro i hi
      rw [hagree i (by simpa using hi)]
    have hpm0 : anaqpskPm0 n onc s₁ = anaqpskPm0 n onc s₂ := by
      unfold anaqpskPm0
      rw [hj]
    unfold anaqpsk
    rw [hpm0]

/-- C4 amended-claim witness: for each of the seven generators, two ambient RNG
states — agreeing on the consumed draws for the keying four, arbitrary for the
deterministic three — give identical outputs. -/
theorem generators_determined_by_consumed_draws_witness :
    anaask 2 (some 1) (1/4) (fun _ => 0)
      = anaask 2 (some 1) (1/4) (fun i => if i < 2 then 0 else 99) ∧
    anabpsk 2 (some 1) (1/4) (fun _ => 0)
      = anabpsk 2 (some 1) (1/4) (fun i => if i < 2 then 0 else 99) ∧
    anafsk 2 (some 1) 4 (fun _ => 0)
      = anafsk 2 (some 1) 4 (fun i => if i < 2 then 0 else 99) ∧
    anaqpsk 2 (some 1) (1/4) (fun _ => 0)
      = anaqpsk 2 (some 1) (1/4) (fun i => if i < 2 then 0 else 99) ∧
    anapulseCall 4 none (fun _ => 0) = anapulseCall 4 none (fun _ => 5) ∧
    anastepCall 4 none (fun _ => 0) = anastepCall 4 none (fun _ => 5) ∧
    anasingCall 4 none 0 (fun _ => 0) = anasingCall 4 none 0 (fun _ => 5) := by
  have hpre : ∀ i < 2, (fun _ : ℕ => (0:ℚ)) i = (fun i => if i < 2 then (0:ℚ) else 99) i := by
    intro i hi
    simp [hi]
  refine ⟨generators_determined_by_consumed_draws.1 2 (some 1) (1/4) _ _ (by
      intro i hi
      exact hpre i (by simpa [mOf] using hi)),
    generators_determined_by_consumed_draws.2.1 2 (some 1) (1/4) _ _ (by
      intro i hi
      exact hpre i (by simpa [mOf] using hi)),
    generators_determined_by_consumed_draws.2.2.1 2 (some 1) 4 _ _ (by
      intro i hi
      exact hpre i (by simpa [mOf] using hi)),
    generators_determined_by_consumed_draws.2.2.2.1 2 (some 1) (1/4) _ _ (by
      intro i hi
      exact hpre i (by simpa [mOf] using hi)),
    generators_determined_by_consumed_draws.2.2.2.2.1 4 none _ _,
    generators_determined_by_consumed_draws.2.2.2.2.2.1 4 none _ _,
    generators_determined_by_consumed_draws.2.2.2.2.2.2 4 none 0 _ _⟩

/-- C5 (counterexample): `anasing(3, h=0)` — an odd `n_points` — does not
complete: `f` has `⌈3/2⌉ = 2` points but `np.zeros((3/2,))` truncates to a
single slot, so the assignment `y[:n_points/2] = ...` fails with a broadcast
`ValueError`; `n_points / 2` is not a valid sample count for the data written
into it. -/
theorem anasing_odd_failure :
    anasing 3 none 0 = .error .broadcastError := by
  have hcond : ¬ ((arangeQ (1 / ((3:ℕ):ℚ)) (1/2 - 1/((3:ℕ):ℚ) + 2 * (1 / ((3:ℕ):ℚ)))
      (1 / ((3:ℕ):ℚ))).length = 3/2 ∨
      (arangeQ (1 / ((3:ℕ):ℚ)) (1/2 - 1/((3:ℕ):ℚ) + 2 * (1 / ((3:ℕ):ℚ)))
      (1 / ((3:ℕ):ℚ))).length = 1) := by
    rw [arangeQ_length]
    have harg : (((1:ℚ)/2 - 1/((3:ℕ):ℚ) + 2 * (1 / ((3:ℕ):ℚ))) - 1 / ((3:ℕ):ℚ))
        / (1 / ((3:ℕ):ℚ)) = 3/2 := by
      norm_num
    rw [harg]
    norm_num [Nat.ceil_eq_iff]
  simp only [anasing, Option.getD]
  rw [if_pos (by norm_num), if_neg hcond]

/-- C5 (amended): for even `n_points` (where the halving shape expression
`n_points / 2` denotes the exact sample count) and any `h ≤ 0`, `anasing`
completes without error and returns a complex sequence of length exactly
`n_points`; odd `n_points ≥ 3` instead fail as in the counterexample. -/
theorem anasing_even_ok (n : ℕ) (hn : 0 < n) (heven : 2 ∣ n) (t0 : Option ℚ)
    (h : ℚ) (hh : h ≤ 0) :
    ∃ l, anasing n t0 h = .ok l ∧ l.length = n := by
  obtain ⟨k, rfl⟩ := heven
  have hk : 0 < k := by omega
  have hkQ : (((2 * k : ℕ)) : ℚ) ≠ 0 := by
    exact_mod_cast (by omega : (2 * k : ℕ) ≠ 0)
  have hflen : (arangeQ (1 / ((2 * k : ℕ) : ℚ))
      (1/2 - 1/((2 * k : ℕ) : ℚ) + 2 * (1 / ((2 * k : ℕ) : ℚ)))
      (1 / ((2 * k : ℕ) : ℚ))).length = k := by
    rw [arangeQ_length]
    have harg : (((1:ℚ)/2 - 1/((2 * k : ℕ) : ℚ) + 2 * (1 / ((2 * k : ℕ) : ℚ)))
        - 1 / ((2 * k : ℕ) : ℚ)) / (1 / ((2 * k : ℕ) : ℚ)) = k := by
      field_simp
      ring
    rw [harg, Nat.ceil_natCast]
  have hcond : (arangeQ (1 / ((2 * k : ℕ) : ℚ))
      (1/2 - 1/((2 * k : ℕ) : ℚ) + 2 * (1 / ((2 * k : ℕ) : ℚ)))
      (1 / ((2 * k : ℕ) : ℚ))).length = 2 * k / 2 := by
    rw [hflen]
    omega
  simp only [anasing]
  rw [if_pos hh, if_pos (Or.inl hcond)]
  refine ⟨_, rfl, ?_⟩
  rw [hilbertL_length]
  simp [ifftL_length]

/-- C5 amended-claim witness: `anasing(4, h=0)` completes with a 4-point
signal. -/
theorem anasing_even_ok_witness :
    ∃ l, anasing 4 none 0 = .ok l ∧ l.length = 4 :=
  anasing_even_ok 4 (by decide) (by decide) none 0 (by norm_num)

end Tftb
